import Mathlib

/-!
Verification of the netpulse scheduler and probe subsystem.

This file gives a shallow embedding, in Lean, of the parts of the Go
sources that the checked properties talk about, and proves (or refutes)
each property against that embedding.

Modelling conventions, used throughout:
- `time.Time` / `time.Duration` values are modelled as natural numbers
  (nanoseconds); Go's `int64` division by 2 on a positive duration is
  Nat division.
- Go `error` values are modelled as `Option String` (`none` = nil error)
  or as small structures carrying the fields the code inspects.
- Go `float64` latencies are modelled as exact rationals: the code only
  ever parses decimal text into them and copies them around, so the
  decimal value is the faithful denotation.
- Network and OS effects (TCP dials, banner reads, reverse DNS, channel
  arrival orders) are supplied as explicit oracle parameters, so every
  definition stays executable and the loops around those effects are
  translated from the source verbatim.
- Concurrency (the scheduler's per-job goroutines, the worker pools) is
  modelled by small-step transition relations whose atomic steps are the
  source's lock-protected (or channel-synchronised) sections.
-/

namespace NetPulse

/-! ### Scheduler job state (src/internal/daemon/scheduler.go)

`Job` in the source carries a name, an interval, and mutable state
`lastRun, nextRun, lastError, errorCount, running` protected by a mutex.
-/

structure JobState where
  name : String
  interval : Nat
  lastRun : Nat
  nextRun : Nat
  lastError : Option String
  errorCount : Nat
  running : Bool
deriving DecidableEq, Repr

/-- Lines 97-104 of `Scheduler.runJob`: mark the job running and stamp
`lastRun` before invoking `job.Run`. -/
def runJobStart (st : JobState) (now : Nat) : JobState :=
  { st with running := true, lastRun := now }

/-- Lines 114-128 of `Scheduler.runJob`: the completion update.  `err`
is the value returned by `job.Run`; `now` is `time.Now()` at completion.
Failure records the error, increments `errorCount` and schedules
`nextRun = now + interval/2`; success clears `lastError` and schedules
`nextRun = now + interval`. -/
def runJobFinish (st : JobState) (err : Option String) (now : Nat) : JobState :=
  match err with
  | some e =>
      { st with running := false, lastError := some e,
                errorCount := st.errorCount + 1,
                nextRun := now + st.interval / 2 }
  | none =>
      { st with running := false, lastError := none,
                nextRun := now + st.interval }

/-- One full execution of `Scheduler.runJob` on a job that is observed
with `running = false` (lines 96-129); if the job is already running the
function returns without touching the state (lines 98-101). -/
def runJobGo (st : JobState) (err : Option String) (tStart tEnd : Nat) : JobState :=
  if st.running then st else runJobFinish (runJobStart st tStart) err tEnd

/-- A sequence of executions: each list entry is the outcome of one
`job.Run` call together with its start and completion times. -/
def applyRuns (st : JobState) (runs : List (Option String × Nat × Nat)) : JobState :=
  runs.foldl (fun s r => runJobGo s r.1 r.2.1 r.2.2) st

lemma runJobGo_running_false (st : JobState) (err : Option String) (t0 t1 : Nat)
    (h : st.running = false) :
    runJobGo st err t0 t1 = runJobFinish (runJobStart st t0) err t1 := by
  simp [runJobGo, h]

lemma runJobGo_running_of (st : JobState) (err : Option String) (t0 t1 : Nat)
    (h : st.running = false) : (runJobGo st err t0 t1).running = false := by
  rw [runJobGo_running_false st err t0 t1 h]
  cases err <;> rfl

lemma applyRuns_running (st : JobState) (runs : List (Option String × Nat × Nat))
    (h : st.running = false) : (applyRuns st runs).running = false := by
  induction runs generalizing st with
  | nil => exact h
  | cons r rest ih =>
      exact ih _ (runJobGo_running_of _ _ _ _ h)

lemma applyRuns_append (st : JobState) (l₁ l₂ : List (Option String × Nat × Nat)) :
    applyRuns st (l₁ ++ l₂) = applyRuns (applyRuns st l₁) l₂ := by
  simp [applyRuns, List.foldl_append]

/-- C1: on a successful completion the scheduler clears `lastError` and
schedules the full interval, leaving `errorCount` unchanged; on a failed
completion it records the error, increments `errorCount` by exactly one
and schedules `interval/2`.  Consequently a job whose runs all fail has
`errorCount` grow by one at every execution (strictly increasing), and a
job whose runs all succeed keeps its initial `errorCount` (0 as
registered). -/
theorem scheduler_job_backoff_spec (st : JobState) (e : String) (t0 t1 : Nat)
    (hrun : st.running = false) :
    ((runJobGo st none t0 t1).lastError = none ∧
     (runJobGo st none t0 t1).nextRun = t1 + st.interval ∧
     (runJobGo st none t0 t1).errorCount = st.errorCount) ∧
    ((runJobGo st (some e) t0 t1).lastError = some e ∧
     (runJobGo st (some e) t0 t1).nextRun = t1 + st.interval / 2 ∧
     (runJobGo st (some e) t0 t1).errorCount = st.errorCount + 1) ∧
    (∀ (runs : List (Option String × Nat × Nat)) (r : Option String × Nat × Nat),
       (∀ x ∈ runs, x.1.isSome = true) → r.1.isSome = true →
       (applyRuns st (runs ++ [r])).errorCount
         = (applyRuns st runs).errorCount + 1) ∧
    (∀ runs : List (Option String × Nat × Nat),
       (∀ x ∈ runs, x.1 = none) →
       (applyRuns st runs).errorCount = st.errorCount) := by
  refine ⟨?_, ?_, ?_, ?_⟩
  · rw [runJobGo_running_false st none t0 t1 hrun]
    exact ⟨rfl, rfl, rfl⟩
  · rw [runJobGo_running_false st (some e) t0 t1 hrun]
    exact ⟨rfl, rfl, rfl⟩
  · intro runs r hall hr
    rw [applyRuns_append]
    obtain ⟨e', he'⟩ := Option.isSome_iff_exists.mp hr
    have hrunning : (applyRuns st runs).running = false := applyRuns_running st runs hrun
    show (runJobGo (applyRuns st runs) r.1 r.2.1 r.2.2).errorCount = _
    rw [runJobGo_running_false _ _ _ _ hrunning, he']
    rfl
  · intro runs hall
    induction runs generalizing st with
    | nil => rfl
    | cons r rest ih =>
        have hr : r.1 = none := hall r (List.mem_cons_self _ _)
        have hstep : runJobGo st r.1 r.2.1 r.2.2
            = runJobFinish (runJobStart st r.2.1) r.1 r.2.2 :=
          runJobGo_running_false _ _ _ _ hrun
        show (applyRuns (runJobGo st r.1 r.2.1 r.2.2) rest).errorCount = st.errorCount
        rw [hstep, hr]
        exact ih _ rfl (fun x hx => hall x (List.mem_cons_of_mem _ hx))

/-- Witness for C1 at a concrete job and concrete runs. -/
theorem scheduler_job_backoff_spec_witness :
    (JobState.mk "ip_check" 600 0 0 none 0 false).running = false ∧
    (runJobGo (JobState.mk "ip_check" 600 0 0 none 0 false) none 10 20).nextRun = 620 ∧
    (runJobGo (JobState.mk "ip_check" 600 0 0 none 0 false) (some "dns fail") 10 20).nextRun = 320 ∧
    (runJobGo (JobState.mk "ip_check" 600 0 0 none 0 false) (some "dns fail") 10 20).errorCount = 1 ∧
    (applyRuns (JobState.mk "ip_check" 600 0 0 none 0 false)
        ([(some "a", 1, 2)] ++ [(some "b", 3, 4)])).errorCount
      = (applyRuns (JobState.mk "ip_check" 600 0 0 none 0 false) [(some "a", 1, 2)]).errorCount + 1 ∧
    (applyRuns (JobState.mk "ip_check" 600 0 0 none 0 false)
        [(none, 1, 2), (none, 3, 4)]).errorCount = 0 := by
  have h := scheduler_job_backoff_spec (JobState.mk "ip_check" 600 0 0 none 0 false)
    "dns fail" 10 20 rfl
  exact ⟨rfl, h.1.2.1, h.2.1.2.1, h.2.1.2.2,
    h.2.2.1 [(some "a", 1, 2)] (some "b", 3, 4) (by decide) (by decide),
    h.2.2.2 [(none, 1, 2), (none, 3, 4)] (by decide)⟩

/-- C3 evidence: the completion path of `Scheduler.runJob` branches only
on `err != nil`; the Go cancellation error (`context.Canceled`, message
"context canceled") is a non-nil error, so a run that ends because the
daemon's root context was cancelled is accounted exactly like a probe
failure: `errorCount` is incremented and the shortened `interval/2`
retry is scheduled. -/
theorem scheduler_counts_cancellation_as_error (st : JobState) (t : Nat) :
    (runJobFinish st (some "context canceled") t).errorCount = st.errorCount + 1 ∧
    (runJobFinish st (some "context canceled") t).nextRun = t + st.interval / 2 ∧
    (runJobFinish st (some "context canceled") t).lastError = some "context canceled" := by
  exact ⟨rfl, rfl, rfl⟩

/-! ### At-most-one in-flight execution per job (scheduler.go, checkJobs/runJob)

Interleaving model of the goroutines touching one job's state.  The
job's mutex makes each of the following an atomic step:
- `spawn`: the tick loop's `go s.runJob(job)` (checkJobs, lines 85-92).
  The model lets a spawn happen at any time — the `!job.running` test in
  `checkJobs` is a racy read whose result may be stale by the time the
  goroutine runs, so the safety of the invariant must not depend on it.
- `start`: runJob's lock-protected re-check (lines 97-104) finding
  `running == false`: sets `running = true` and begins the execution.
- `abort`: the same re-check finding `running == true`: the goroutine
  returns without executing (lines 98-101).
- `finish`: the lock-protected completion update (lines 114-128):
  `running = false` and the execution leaves flight.

`pending` counts spawned goroutines that have not yet taken the lock;
`inFlight` counts executions of `job.Run` currently in flight. -/

structure JobRuntime where
  running : Bool
  pending : Nat
  inFlight : Nat
deriving DecidableEq, Repr

inductive JobStep : JobRuntime → JobRuntime → Prop
  | spawn (s : JobRuntime) :
      JobStep s { s with pending := s.pending + 1 }
  | start (s : JobRuntime) (h : s.running = false) (hp : 0 < s.pending) :
      JobStep s { running := true, pending := s.pending - 1, inFlight := s.inFlight + 1 }
  | abort (s : JobRuntime) (h : s.running = true) (hp : 0 < s.pending) :
      JobStep s { s with pending := s.pending - 1 }
  | finish (s : JobRuntime) (h : 0 < s.inFlight) :
      JobStep s { running := false, pending := s.pending, inFlight := s.inFlight - 1 }

/-- A job starts idle with no spawned goroutines and nothing in flight. -/
def jobInit : JobRuntime := ⟨false, 0, 0⟩

def JobReachable (s : JobRuntime) : Prop :=
  Relation.ReflTransGen JobStep jobInit s

/-- The inductive invariant: the number of in-flight executions is
exactly the `running` flag. -/
def jobInv (s : JobRuntime) : Prop :=
  s.inFlight = if s.running then 1 else 0

lemma jobInv_init : jobInv jobInit := rfl

lemma jobInv_step {s s' : JobRuntime} (hstep : JobStep s s') (hinv : jobInv s) :
    jobInv s' := by
  cases hstep with
  | spawn => exact hinv
  | start h hp =>
      simp only [jobInv, h, if_false] at hinv
      simp [jobInv, hinv]
  | abort h hp => exact hinv
  | finish h =>
      simp only [jobInv] at hinv ⊢
      split at hinv
      · simp [hinv]
      · omega

lemma jobInv_reachable {s : JobRuntime} (h : JobReachable s) : jobInv s := by
  induction h with
  | refl => exact jobInv_init
  | tail _ hstep ih => exact jobInv_step hstep ih

/-- C2: in every reachable state of the per-job step relation at most
one execution of the job's `Run` function is in flight: the lock-held
re-check in `runJob` aborts any goroutine that finds the job already
running, so concurrent ticks can never start two executions of the same
job. -/
theorem scheduler_at_most_one_execution (s : JobRuntime) (h : JobReachable s) :
    s.inFlight ≤ 1 := by
  have hinv := jobInv_reachable h
  rw [jobInv] at hinv
  split at hinv <;> omega

/-- Witness for C2: the state reached by one spawn followed by one
start (an execution actually in flight) satisfies the bound. -/
theorem scheduler_at_most_one_execution_witness :
    JobReachable ⟨true, 0, 1⟩ ∧ (JobRuntime.mk true 0 1).inFlight ≤ 1 := by
  have hreach : JobReachable ⟨true, 0, 1⟩ :=
    Relation.ReflTransGen.tail
      (Relation.ReflTransGen.tail Relation.ReflTransGen.refl (JobStep.spawn jobInit))
      (JobStep.start ⟨false, 1, 0⟩ rfl (by decide))
  exact ⟨hreach, scheduler_at_most_one_execution _ hreach⟩

/-! ### Public IP consensus (src/internal/probes/ip.go)

`fetchIP` validates each provider body with `isValidIP`; `GetPublicIP`
collects the validated answers and returns `consensus(ips)`, the address
with the highest occurrence count, or an error when no provider gave a
valid answer.  The Go `counts` map assigns each distinct collected
address its multiplicity in `ips`; the `for ip, count := range counts`
loop walks the keys in an unspecified order, so the key order is an
explicit parameter of the model. -/

/-- `isValidIP` (ip.go, lines 140-146): plausible length and contains a
dot or a colon.  Addresses are ASCII, so Go's byte length is the
character length. -/
def isValidIP (ip : String) : Bool :=
  if ip.length < 7 || 45 < ip.length then false
  else ip.data.any (· = '.') || ip.data.any (· = ':')

/-- The validated answers among the provider responses: `none` models a
transport/HTTP failure, `some body` the trimmed body text; a body that
fails `isValidIP` is that provider's failure (fetchIP, lines 114-119). -/
def validResponses (bodies : List (Option String)) : List String :=
  bodies.filterMap fun b =>
    match b with
    | none => none
    | some s => if isValidIP s then some s else none

/-- The `for ip, count := range counts` loop of `consensus` (ip.go,
lines 128-135), walking the distinct collected addresses in the order
`keys`, keeping the first strict maximum. -/
def consensusLoop (ips : List String) : List String → String → Nat → String
  | [], maxIP, _ => maxIP
  | k :: keys, maxIP, maxCount =>
      if ips.count k > maxCount then consensusLoop ips keys k (ips.count k)
      else consensusLoop ips keys maxIP maxCount

/-- `consensus` (ip.go, lines 122-138): `keys` is the iteration order of
the Go map whose keys are the distinct elements of `ips`. -/
def consensusGo (keys ips : List String) : String :=
  consensusLoop ips keys "" 0

/-- The result-construction tail of `GetPublicIP` (ip.go, lines 81-89):
error when no valid answer was collected, otherwise the consensus. -/
def getPublicIPGo (bodies : List (Option String)) (keys : List String) :
    Except String String :=
  let ips := validResponses bodies
  if ips.isEmpty then Except.error "all providers failed"
  else Except.ok (consensusGo keys ips)

lemma consensusLoop_spec (ips : List String) :
    ∀ (keys : List String) (maxIP : String) (maxCount : Nat),
      (consensusLoop ips keys maxIP maxCount = maxIP ∧
        ∀ k ∈ keys, ips.count k ≤ maxCount) ∨
      (consensusLoop ips keys maxIP maxCount ∈ keys ∧
        maxCount < ips.count (consensusLoop ips keys maxIP maxCount) ∧
        ∀ k ∈ keys, ips.count k ≤ ips.count (consensusLoop ips keys maxIP maxCount)) := by
  intro keys
  induction keys with
  | nil => intro maxIP maxCount; exact Or.inl ⟨rfl, by simp⟩
  | cons k keys ih =>
      intro maxIP maxCount
      by_cases hgt : ips.count k > maxCount
      · have hres : consensusLoop ips (k :: keys) maxIP maxCount
            = consensusLoop ips keys k (ips.count k) := by
          simp [consensusLoop, hgt]
        rcases ih k (ips.count k) with ⟨heq, hbnd⟩ | ⟨hmem, hlt, hbnd⟩
        · refine Or.inr ⟨?_, ?_, ?_⟩
          · rw [hres, heq]; exact List.mem_cons_self _ _
          · rw [hres, heq]; exact hgt
          · intro x hx
            rw [hres, heq]
            rcases List.mem_cons.mp hx with hx | hx
            · subst hx; exact le_refl _
            · exact hbnd x hx
        · refine Or.inr ⟨?_, ?_, ?_⟩
          · rw [hres]; exact List.mem_cons_of_mem _ hmem
          · rw [hres]; exact lt_trans hgt hlt
          · intro x hx
            rw [hres]
            rcases List.mem_cons.mp hx with hx | hx
            · subst hx; exact le_of_lt hlt
            · exact hbnd x hx
      · have hres : consensusLoop ips (k :: keys) maxIP maxCount
            = consensusLoop ips keys maxIP maxCount := by
          simp [consensusLoop, hgt]
        rcases ih maxIP maxCount with ⟨heq, hbnd⟩ | ⟨hmem, hlt, hbnd⟩
        · refine Or.inl ⟨by rw [hres, heq], ?_⟩
          intro x hx
          rcases List.mem_cons.mp hx with hx | hx
          · subst hx; omega
          · exact hbnd x hx
        · refine Or.inr ⟨?_, ?_, ?_⟩
          · rw [hres]; exact List.mem_cons_of_mem _ hmem
          · rw [hres]; exact hlt
          · intro x hx
            rw [hres]
            rcases List.mem_cons.mp hx with hx | hx
            · subst hx
              omega
            · exact hbnd x hx

/-- C4: for every multiset of provider responses and every iteration
order of the counts map's keys, `GetPublicIP` succeeds exactly when at
least one provider returned a valid answer, and the returned address is
a collected answer of maximal occurrence count (so responses A, A, B
yield A). -/
theorem publicIP_consensus_spec (bodies : List (Option String)) (keys : List String)
    (hkeys : keys.Perm (validResponses bodies).dedup) :
    ((getPublicIPGo bodies keys).isOk = true ↔ validResponses bodies ≠ []) ∧
    (∀ r, getPublicIPGo bodies keys = Except.ok r →
       r ∈ validResponses bodies ∧
       ∀ x, (validResponses bodies).count x ≤ (validResponses bodies).count r) := by
  set ips := validResponses bodies with hips
  have hmem : ∀ x, x ∈ keys ↔ x ∈ ips := by
    intro x
    rw [hkeys.mem_iff, List.mem_dedup]
  by_cases hnil : ips.isEmpty
  · have hempty : ips = [] := List.isEmpty_iff.mp hnil
    constructor
    · simp [getPublicIPGo, ← hips, hnil, Except.isOk, Except.toBool, hempty]
    · intro r hr
      simp [getPublicIPGo, ← hips, hnil] at hr
  · have hne : ips ≠ [] := fun h => hnil (by simp [h])
    have hres : getPublicIPGo bodies keys = Except.ok (consensusGo keys ips) := by
      simp [getPublicIPGo, ← hips, hnil]
    constructor
    · simp [hres, Except.isOk, Except.toBool, hne]
    · intro r hr
      rw [hres] at hr
      have hr' : r = consensusGo keys ips := by
        injection hr with h'
        exact h'.symm
      subst hr'
      rcases consensusLoop_spec ips keys "" 0 with ⟨heq, hbnd⟩ | ⟨hmemk, _, hbnd⟩
      · -- impossible: a nonempty `ips` has a key of positive count
        obtain ⟨a, ha⟩ := List.exists_mem_of_ne_nil ips hne
        have hak : a ∈ keys := (hmem a).mpr ha
        have := hbnd a hak
        have : ips.count a = 0 := Nat.le_zero.mp this
        rw [List.count_eq_zero] at this
        exact absurd ha this
      · refine ⟨(hmem _).mp hmemk, ?_⟩
        intro x
        by_cases hx : x ∈ ips
        · exact hbnd x ((hmem x).mpr hx)
        · rw [List.count_eq_zero_of_not_mem hx]
          exact Nat.zero_le _


/-- Witness for C4 at responses A, A, B (with A = "203.0.113.7" and
B = "198.51.100.9"): the consensus is A and the call succeeds. -/
theorem publicIP_consensus_spec_witness :
    (["203.0.113.7", "198.51.100.9"].Perm
      (validResponses [some "203.0.113.7", some "203.0.113.7", some "198.51.100.9"]).dedup) ∧
    getPublicIPGo [some "203.0.113.7", some "203.0.113.7", some "198.51.100.9"]
        ["203.0.113.7", "198.51.100.9"] = Except.ok "203.0.113.7" ∧
    "203.0.113.7" ∈ validResponses [some "203.0.113.7", some "203.0.113.7", some "198.51.100.9"] := by
  have hperm : (["203.0.113.7", "198.51.100.9"].Perm
      (validResponses [some "203.0.113.7", some "203.0.113.7", some "198.51.100.9"]).dedup) := by
    decide
  have hok : getPublicIPGo [some "203.0.113.7", some "203.0.113.7", some "198.51.100.9"]
      ["203.0.113.7", "198.51.100.9"] = Except.ok "203.0.113.7" := by rfl
  have h := (publicIP_consensus_spec
    [some "203.0.113.7", some "203.0.113.7", some "198.51.100.9"]
    ["203.0.113.7", "198.51.100.9"] hperm).2 "203.0.113.7" hok
  exact ⟨hperm, hok, h.1⟩

/-! ### The response-collection loop of GetPublicIP (ip.go, lines 63-79)

The loop runs one `select` iteration per configured provider.  An
iteration consumes the next available channel arrival: a provider's
answer, a provider's error, or the single firing of the
`time.After(p.timeout)` channel.  In the source the `case <-timeout:
break` arm only exits the `select`, not the `for` loop, and the
`time.After` channel never fires a second time, so a timeout firing
consumes one iteration without stopping the collection.  The model takes
the complete sequence of channel arrivals as input; `none` is returned
when the loop needs another arrival but none will ever come — the
remaining `select` blocks forever.  The surrounding context is taken as
never cancelled, as in the property under check. -/

inductive IPEvent
  | res (ip : String)
  | errE (e : String)
  | timeoutFired
deriving DecidableEq, Repr

def collectLoop : Nat → List IPEvent → List String → List String →
    Option (List String × List String)
  | 0, _, ips, errs => some (ips, errs)
  | _ + 1, [], _, _ => none
  | n + 1, ev :: rest, ips, errs =>
      match ev with
      | IPEvent.res ip => collectLoop n rest (ips ++ [ip]) errs
      | IPEvent.errE e => collectLoop n rest ips (errs ++ [e])
      | IPEvent.timeoutFired => collectLoop n rest ips errs

/-- C5 evidence: with three providers of which only one answers (and the
other two never produce a response or an error), the configured timeout
fires after the single answer — and the collection loop still does not
return: the `break` leaves only the `select`, the loop's third iteration
blocks forever on the dead channels.  The loop result is `none`
(blocked), not a consensus of the answers gathered so far. -/
theorem publicIP_collection_blocks_after_timeout :
    collectLoop 3 [IPEvent.res "203.0.113.7", IPEvent.timeoutFired] [] [] = none := by
  rfl

/-! ### Traceroute output parser (src/unnamed/part_003, parseTracerouteOutput)

The parser scans the output line by line and matches each line against

  `^\s*(\d+)\s+(?:(\d+\.\d+\.\d+\.\d+)\s+(\d+\.?\d*)\s*ms|\*\s+\*\s+\*)`

A line matching the first alternative yields a hop with the captured
number, IP and latency (`Lost = false`); a line matching the star
alternative yields a lost hop; other lines yield nothing.  The regular
expression is translated below into a deterministic recogniser over the
line's characters: every repetition in the pattern is of a character
class disjoint from what follows it (digit runs end at a non-digit,
space runs at a non-space), so the greedy left-to-right reading is
exactly the regexp's match.  Go's `\s` class is `[\t\n\f\r ]`. -/

structure TraceHop where
  hopNum : Nat
  ip : String
  latencyMs : ℚ
  lost : Bool
deriving DecidableEq, Repr

def isGoSpace (c : Char) : Bool :=
  c = ' ' || c = '\t' || c = '\n' || c = '\x0c' || c = '\r'

/-- Decimal digits to their value (`strconv.Atoi` on a digit run). -/
def natOfDigits (ds : List Char) : Nat :=
  ds.foldl (fun n c => 10 * n + (c.toNat - '0'.toNat)) 0

/-- Value of `strconv.ParseFloat` on a matched `\d+\.?\d*` group, as an
exact rational: integer part followed by the fractional digits scaled by
their decimal weight. -/
def ratOfDecimal (intDs fracDs : List Char) : ℚ :=
  mkRat (natOfDigits intDs * 10 ^ fracDs.length + natOfDigits fracDs)
    (10 ^ fracDs.length)

/-- One mandatory literal character. -/
def expectChar (c : Char) : List Char → Option (List Char)
  | x :: rest => if x = c then some rest else none
  | [] => none

/-- `\s+`: at least one whitespace character, consumed greedily. -/
def dropSpaces1 (l : List Char) : Option (List Char) :=
  match l.span isGoSpace with
  | (sp, rest) => if sp.isEmpty then none else some rest

/-- `\d+`: at least one digit, consumed greedily. -/
def takeDigits1 (l : List Char) : Option (List Char × List Char) :=
  match l.span (·.isDigit) with
  | (ds, rest) => if ds.isEmpty then none else some (ds, rest)

/-- The `(\d+\.\d+\.\d+\.\d+)` capture group: returns the matched
characters and the rest of the line. -/
def parseIPv4 (l : List Char) : Option (List Char × List Char) := do
  let (d1, r) ← takeDigits1 l
  let r ← expectChar '.' r
  let (d2, r) ← takeDigits1 r
  let r ← expectChar '.' r
  let (d3, r) ← takeDigits1 r
  let r ← expectChar '.' r
  let (d4, r) ← takeDigits1 r
  some (d1 ++ '.' :: d2 ++ '.' :: d3 ++ '.' :: d4, r)

/-- The `(\d+\.?\d*)\s*ms` tail: latency value followed by the literal
`ms`. -/
def parseLatency (l : List Char) : Option ℚ := do
  let (ids, r) ← takeDigits1 l
  let (fds, r) :=
    match r with
    | '.' :: r' => r'.span (fun c : Char => c.isDigit)
    | _ => ([], r)
  let r := (r.span isGoSpace).2
  let r ← expectChar 'm' r
  let _ ← expectChar 's' r
  some (ratOfDecimal ids fds)

/-- The `\*\s+\*\s+\*` alternative. -/
def parseStars (l : List Char) : Option Unit := do
  let r ← expectChar '*' l
  let r ← dropSpaces1 r
  let r ← expectChar '*' r
  let r ← dropSpaces1 r
  let _ ← expectChar '*' r
  some ()

/-- One line of traceroute output (part_003, lines 84-101): `none` when
the line matches neither alternative of the hop regexp.  The star
alternative is also the regexp's backtracking fallback when the IP
alternative fails part-way (both alternatives restart at the same
position after `(\d+)\s+`). -/
def parseHopLine (line : String) : Option TraceHop :=
  let l := (line.data.span isGoSpace).2
  match takeDigits1 l with
  | none => none
  | some (hds, r0) =>
    match dropSpaces1 r0 with
    | none => none
    | some r =>
      let hopNum := natOfDigits hds
      let lostHop : Option TraceHop :=
        match parseStars r with
        | some _ => some ⟨hopNum, "", 0, true⟩
        | none => none
      match parseIPv4 r with
      | none => lostHop
      | some (ipChars, r2) =>
        match dropSpaces1 r2 with
        | none => lostHop
        | some r3 =>
          match parseLatency r3 with
          | none => lostHop
          | some q => some ⟨hopNum, String.mk ipChars, q, false⟩

/-- `bufio.Scanner` with `ScanLines`: split on newline, dropping a
trailing carriage return from each line. -/
def scanLinesGo (cs : List Char) : List (List Char) :=
  match cs with
  | [] => [[]]
  | '\n' :: rest => [] :: scanLinesGo rest
  | c :: rest =>
      match scanLinesGo rest with
      | [] => [[c]]
      | line :: lines => (c :: line) :: lines

def stripCarriageReturn (line : List Char) : List Char :=
  match line.reverse with
  | '\r' :: rest => rest.reverse
  | _ => line

def splitLinesGo (output : String) : List String :=
  (scanLinesGo output.data).map (fun l => String.mk (stripCarriageReturn l))

/-- `parseTracerouteOutput` (part_003, lines 73-105): the hops of the
lines that match the regexp, in line order. -/
def parseTracerouteOutput (output : String) : List TraceHop :=
  (splitLinesGo output).filterMap parseHopLine

/-- C6: the line `"1 192.168.0.1 1.234 ms"` parses to hop 1 at
192.168.0.1 with latency 1.234 and not lost; the line `"2 * * *"`
parses to lost hop 2; and a hop number produced by no line of the
output is absent from the parsed result. -/
theorem traceroute_parser_spec :
    parseHopLine "1 192.168.0.1 1.234 ms"
      = some ⟨1, "192.168.0.1", mkRat 1234 1000, false⟩ ∧
    parseHopLine "2 * * *" = some ⟨2, "", 0, true⟩ ∧
    (∀ (output : String) (n : Nat),
      (∀ line ∈ splitLinesGo output, ∀ h ∈ (parseHopLine line).toList, h.hopNum ≠ n) →
      ∀ h ∈ parseTracerouteOutput output, h.hopNum ≠ n) := by
  refine ⟨by decide, by decide, ?_⟩
  intro output n habsent h hmem
  obtain ⟨line, hline, hparse⟩ := List.mem_filterMap.mp hmem
  exact habsent line hline h (by simp [hparse])

/-- Witness for C6: a two-line output containing hops 1 and 7 contains
no hop numbered 3. -/
theorem traceroute_parser_spec_witness :
    (∀ line ∈ splitLinesGo "1 192.168.0.1 1.234 ms\n7 * * *",
       ∀ h ∈ (parseHopLine line).toList, h.hopNum ≠ 3) ∧
    (∀ h ∈ parseTracerouteOutput "1 192.168.0.1 1.234 ms\n7 * * *", h.hopNum ≠ 3) := by
  have habsent : ∀ line ∈ splitLinesGo "1 192.168.0.1 1.234 ms\n7 * * *",
      ∀ h ∈ (parseHopLine line).toList, h.hopNum ≠ 3 := by decide
  exact ⟨habsent,
    traceroute_parser_spec.2.2 "1 192.168.0.1 1.234 ms\n7 * * *" 3 habsent⟩

/-! ### CIDR expansion (src/unnamed/part_002, expandCIDR / incIP)

`expandCIDR` parses the input with `net.ParseCIDR` and then iterates

    for ip := ip.Mask(ipnet.Mask); ipnet.Contains(ip); incIP(ip) {
        ips = append(ips, ip.String())
    }

dropping the first and last entries when more than two were produced.
Addresses are modelled as natural numbers below `2^32` (the 4-byte IPv4
case; the 16-byte case is structurally identical).  `ip.Mask(m)` is
bitwise AND with the mask, `ipnet.Contains(x)` compares `x &&& mask`
with the network address, and `incIP` is increment modulo `2^32` (the
byte-array carry chain wraps `255.255.255.255` to `0.0.0.0`).
`net.ParseCIDR` itself is Go standard-library code, modelled as the
already-parsed `Option (base, prefixLen)` — `none` for malformed input.

The Go loop's only state is the current 32-bit address, so if it has not
exited within `2^32 + 1` iterations it has revisited an address and
never terminates.  `expandLoop` therefore carries `blockSize + 1` fuel
(enough for every terminating prefix length, see
`addressExpander_spec`), and `expandCIDRGo` answers `none` — the source
loop runs forever — when the fuel runs out. -/

/-- `net.CIDRMask(bits, 32)` as a number: `bits` leading one bits. -/
def maskOf (bits : Nat) : Nat := 2 ^ 32 - 2 ^ (32 - bits)

/-- `ip.Mask(ipnet.Mask)`: the network address of the block. -/
def networkOf (base bits : Nat) : Nat := base &&& maskOf bits

/-- `ipnet.Contains(ip)`. -/
def containsIP (base bits ip : Nat) : Bool :=
  (ip &&& maskOf bits) == networkOf base bits

/-- `incIP`: byte-wise increment with carry, i.e. +1 modulo 2^32. -/
def incIPGo (ip : Nat) : Nat := (ip + 1) % 2 ^ 32

/-- Number of addresses in the block. -/
def blockSize (bits : Nat) : Nat := 2 ^ (32 - bits)

def expandLoop (base bits : Nat) : Nat → Nat → List Nat → Option (List Nat)
  | 0, _, _ => none
  | fuel + 1, ip, acc =>
      if containsIP base bits ip then
        expandLoop base bits fuel (incIPGo ip) (acc ++ [ip])
      else some acc

/-- `expandCIDR` (part_002, lines 152-169).  Outer `none`: the loop does
not terminate.  `some (error _)`: the malformed-input return.
`some (ok l)`: the returned address list. -/
def expandCIDRGo (input : Option (Nat × Nat)) : Option (Except String (List Nat)) :=
  match input with
  | none => some (Except.error "invalid CIDR")
  | some (base, bits) =>
      match expandLoop base bits (blockSize bits + 1) (networkOf base bits) [] with
      | none => none
      | some ips =>
          some (Except.ok (if 2 < ips.length then (ips.drop 1).dropLast else ips))

/-- Bitwise AND with a `bits`-leading-ones mask clears the low `32-bits`
bits: it rounds down to a multiple of the block size. -/
lemma land_maskOf (x k : Nat) (hk : k ≤ 32) (hx : x < 2 ^ 32) :
    x &&& (2 ^ 32 - 2 ^ k) = x / 2 ^ k * 2 ^ k := by
  have hmask : 2 ^ 32 - 2 ^ k = (2 ^ (32 - k) - 1) <<< k := by
    rw [Nat.shiftLeft_eq, Nat.sub_mul, one_mul, ← Nat.pow_add]
    congr 2
    omega
  have hdiv : x / 2 ^ k * 2 ^ k = (x >>> k) <<< k := by
    rw [Nat.shiftRight_eq_div_pow, Nat.shiftLeft_eq]
  rw [hmask, hdiv]
  apply Nat.eq_of_testBit_eq
  intro i
  rw [Nat.testBit_land, Nat.testBit_shiftLeft, Nat.testBit_shiftLeft,
    Nat.testBit_shiftRight, Nat.testBit_two_pow_sub_one]
  by_cases hki : k ≤ i
  · have hik : k + (i - k) = i := by omega
    rw [hik]
    by_cases hi32 : i < 32
    · have : i - k < 32 - k := by omega
      simp [ge_iff_le, hki, this]
    · have hxi : x.testBit i = false :=
        Nat.testBit_lt_two_pow
          (lt_of_lt_of_le hx (Nat.pow_le_pow_right (by norm_num) (by omega)))
      simp [hxi]
  · simp [ge_iff_le, hki]

lemma networkOf_eq (base bits : Nat) (hbits : bits ≤ 32) (hbase : base < 2 ^ 32) :
    networkOf base bits = base / blockSize bits * blockSize bits := by
  rw [networkOf, maskOf, blockSize]
  exact land_maskOf base (32 - bits) (by omega) hbase

lemma networkOf_add_blockSize_le (base bits : Nat) (hbits : bits ≤ 32)
    (hbase : base < 2 ^ 32) :
    networkOf base bits + blockSize bits ≤ 2 ^ 32 := by
  rw [networkOf_eq base bits hbits hbase]
  have hL : 0 < blockSize bits := Nat.pos_pow_of_pos _ (by norm_num)
  have hsplit : (2 : Nat) ^ 32 = 2 ^ bits * blockSize bits := by
    rw [blockSize, ← Nat.pow_add]
    congr 1
    omega
  have hdivlt : base / blockSize bits < 2 ^ bits := by
    rw [Nat.div_lt_iff_lt_mul hL]
    calc base < 2 ^ 32 := hbase
    _ = 2 ^ bits * blockSize bits := hsplit
    _ = 2 ^ bits * blockSize bits := rfl
  calc base / blockSize bits * blockSize bits + blockSize bits
      = (base / blockSize bits + 1) * blockSize bits := by ring
    _ ≤ 2 ^ bits * blockSize bits := Nat.mul_le_mul_right _ (by omega)
    _ = 2 ^ 32 := hsplit.symm

lemma containsIP_of_offset (base bits j : Nat) (hbits : bits ≤ 32)
    (hbase : base < 2 ^ 32) (hj : j < blockSize bits) :
    containsIP base bits (networkOf base bits + j) = true := by
  have hL : 0 < blockSize bits := Nat.pos_pow_of_pos _ (by norm_num)
  have hlt : networkOf base bits + j < 2 ^ 32 := by
    have := networkOf_add_blockSize_le base bits hbits hbase
    omega
  have hand : (networkOf base bits + j) &&& maskOf bits = networkOf base bits := by
    have h1 : (networkOf base bits + j) &&& maskOf bits
        = (networkOf base bits + j) / blockSize bits * blockSize bits := by
      rw [maskOf, blockSize]
      exact land_maskOf _ (32 - bits) (by omega) hlt
    rw [h1, networkOf_eq base bits hbits hbase]
    have h2 : (base / blockSize bits * blockSize bits + j) / blockSize bits
        = base / blockSize bits := by
      rw [Nat.mul_comm (base / blockSize bits) (blockSize bits),
        Nat.mul_add_div hL, Nat.div_eq_of_lt hj]
      omega
    rw [h2]
  simp [containsIP, hand]

lemma containsIP_stop (base bits : Nat) (hbits1 : 1 ≤ bits) (hbits : bits ≤ 32)
    (hbase : base < 2 ^ 32) :
    containsIP base bits ((networkOf base bits + blockSize bits) % 2 ^ 32) = false := by
  have hL : 0 < blockSize bits := Nat.pos_pow_of_pos _ (by norm_num)
  have hle := networkOf_add_blockSize_le base bits hbits hbase
  rcases Nat.lt_or_ge (networkOf base bits + blockSize bits) (2 ^ 32) with hlt | hge
  · -- no wrap: the next address is the block's successor
    rw [Nat.mod_eq_of_lt hlt]
    have h1 : (networkOf base bits + blockSize bits) &&& maskOf bits
        = (networkOf base bits + blockSize bits) / blockSize bits * blockSize bits := by
      rw [maskOf, blockSize]
      exact land_maskOf _ (32 - bits) (by omega) hlt
    have h2 : (networkOf base bits + blockSize bits) / blockSize bits
        = base / blockSize bits + 1 := by
      rw [networkOf_eq base bits hbits hbase,
        Nat.mul_comm (base / blockSize bits) (blockSize bits), Nat.add_comm,
        Nat.add_mul_div_left _ _ hL, Nat.div_self hL]
      omega
    simp only [containsIP, h1, h2]
    rw [networkOf_eq base bits hbits hbase]
    have : (base / blockSize bits + 1) * blockSize bits
        ≠ base / blockSize bits * blockSize bits := by
      have : (base / blockSize bits + 1) * blockSize bits
          = base / blockSize bits * blockSize bits + blockSize bits := by ring
      omega
    simp [this]
  · -- wrap to 0.0.0.0: the network address of a block with bits ≥ 1 is nonzero here
    have heq : networkOf base bits + blockSize bits = 2 ^ 32 := by omega
    have hmod : (networkOf base bits + blockSize bits) % 2 ^ 32 = 0 := by
      rw [heq, Nat.mod_self]
    rw [hmod]
    have hzero : (0 : Nat) &&& maskOf bits = 0 := by simp
    have hnet : networkOf base bits ≠ 0 := by
      have hLlt : blockSize bits < 2 ^ 32 := by
        rw [blockSize]
        exact Nat.pow_lt_pow_right (by norm_num) (by omega)
      omega
    simp [containsIP, hzero]
    omega

/-- The loop from a start address: with the given in-block and exit
facts it terminates and appends exactly the visited addresses. -/
lemma expandLoop_spec (base bits : Nat) :
    ∀ (n fuel ip : Nat) (acc : List Nat), ip < 2 ^ 32 → n < fuel →
      (∀ j, j < n → containsIP base bits ((ip + j) % 2 ^ 32) = true) →
      containsIP base bits ((ip + n) % 2 ^ 32) = false →
      expandLoop base bits fuel ip acc
        = some (acc ++ (List.range n).map (fun j => (ip + j) % 2 ^ 32)) := by
  intro n
  induction n with
  | zero =>
      intro fuel ip acc hip hfuel hin hstop
      match fuel, hfuel with
      | fuel + 1, _ =>
        rw [Nat.add_zero, Nat.mod_eq_of_lt hip] at hstop
        simp [expandLoop, hstop]
  | succ n ih =>
      intro fuel ip acc hip hfuel hin hstop
      match fuel, hfuel with
      | fuel + 1, hfuel =>
        have hhead : containsIP base bits ip = true := by
          have := hin 0 (Nat.succ_pos n)
          rwa [Nat.add_zero, Nat.mod_eq_of_lt hip] at this
        have hrec := ih fuel (incIPGo ip) (acc ++ [ip]) (Nat.mod_lt _ (by norm_num))
          (by omega)
          (fun j hj => by
            have h1 : (incIPGo ip + j) % 2 ^ 32 = (ip + (j + 1)) % 2 ^ 32 := by
              rw [incIPGo, Nat.mod_add_mod]
              congr 1
              omega
            rw [h1]
            exact hin (j + 1) (by omega))
          (by
            have h1 : (incIPGo ip + n) % 2 ^ 32 = (ip + (n + 1)) % 2 ^ 32 := by
              rw [incIPGo, Nat.mod_add_mod]
              congr 1
              omega
            rw [h1]
            exact hstop)
        rw [expandLoop, if_pos hhead, hrec]
        have hmap : (List.range n).map (fun j => (incIPGo ip + j) % 2 ^ 32)
            = (List.range n).map (fun j => (ip + (j + 1)) % 2 ^ 32) := by
          apply List.map_congr_left
          intro j hj
          rw [incIPGo, Nat.mod_add_mod]
          congr 1
          omega
        have hrange : (List.range (n + 1)).map (fun j => (ip + j) % 2 ^ 32)
            = ip :: (List.range n).map (fun j => (ip + (j + 1)) % 2 ^ 32) := by
          rw [List.range_succ_eq_map, List.map_cons, List.map_map]
          congr 1
          rw [Nat.add_zero, Nat.mod_eq_of_lt hip]
        rw [hmap, hrange]
        simp

/-- With prefix length 0 every address is in the block, so the loop
never exits. -/
lemma expandLoop_zero_bits (base : Nat) :
    ∀ (fuel ip : Nat) (acc : List Nat), expandLoop base 0 fuel ip acc = none := by
  intro fuel
  induction fuel with
  | zero => intro ip acc; rfl
  | succ fuel ih =>
      intro ip acc
      have hmask : maskOf 0 = 0 := by simp [maskOf]
      have hcont : containsIP base 0 ip = true := by
        simp [containsIP, hmask, networkOf]
      rw [expandLoop, if_pos hcont]
      exact ih _ _

/-- C7 (amended to prefix lengths ≥ 1): on a well-formed CIDR the
expansion returns the block's addresses in ascending order — the full
ascending range runs from the network address to the broadcast address —
with the first (network) and last (broadcast) entries removed when the
block has more than 2 addresses and kept otherwise, and a malformed
input yields the error return and no list.  Prefix length 0 is excluded:
see `addressExpander_slash_zero_diverges`. -/
theorem addressExpander_spec (base bits : Nat) (hbits1 : 1 ≤ bits)
    (hbits : bits ≤ 32) (hbase : base < 2 ^ 32) :
    (expandCIDRGo (some (base, bits)) = some (Except.ok
       (if 2 < ((List.range (blockSize bits)).map
                  (fun j => networkOf base bits + j)).length then
          (((List.range (blockSize bits)).map
              (fun j => networkOf base bits + j)).drop 1).dropLast
        else (List.range (blockSize bits)).map (fun j => networkOf base bits + j)))) ∧
    ((List.range (blockSize bits)).map
        (fun j => networkOf base bits + j)).Pairwise (· < ·) ∧
    (if 2 < ((List.range (blockSize bits)).map
               (fun j => networkOf base bits + j)).length then
       ((((List.range (blockSize bits)).map
           (fun j => networkOf base bits + j)).drop 1).dropLast)
     else (List.range (blockSize bits)).map
            (fun j => networkOf base bits + j)).Pairwise (· < ·) ∧
    ((List.range (blockSize bits)).map
        (fun j => networkOf base bits + j)).head? = some (networkOf base bits) ∧
    ((List.range (blockSize bits)).map
        (fun j => networkOf base bits + j)).getLast?
      = some (networkOf base bits + (blockSize bits - 1)) ∧
    expandCIDRGo none = some (Except.error "invalid CIDR") := by
  have hL : 0 < blockSize bits := Nat.pos_pow_of_pos _ (by norm_num)
  have hle := networkOf_add_blockSize_le base bits hbits hbase
  have hnetlt : networkOf base bits < 2 ^ 32 := by omega
  have hpw : ((List.range (blockSize bits)).map
      (fun j => networkOf base bits + j)).Pairwise (· < ·) := by
    rw [List.pairwise_map]
    exact (List.pairwise_lt_range _).imp (fun h => by omega)
  refine ⟨?_, hpw, ?_, ?_, ?_, rfl⟩
  · have hloop := expandLoop_spec base bits (blockSize bits) (blockSize bits + 1)
      (networkOf base bits) [] hnetlt (by omega)
      (fun j hj => by
        rw [Nat.mod_eq_of_lt (by omega)]
        exact containsIP_of_offset base bits j hbits hbase hj)
      (containsIP_stop base bits hbits1 hbits hbase)
    have hmap : (List.range (blockSize bits)).map
        (fun j => (networkOf base bits + j) % 2 ^ 32)
        = (List.range (blockSize bits)).map (fun j => networkOf base bits + j) := by
      apply List.map_congr_left
      intro j hj
      rw [List.mem_range] at hj
      exact Nat.mod_eq_of_lt (by omega)
    rw [expandCIDRGo, hloop, List.nil_append, hmap]
  · split
    · exact List.Pairwise.sublist
        ((List.dropLast_sublist _).trans (List.drop_sublist _ _)) hpw
    · exact hpw
  · rw [List.head?_map, List.head?_range, if_neg (by omega)]
    simp
  · obtain ⟨m, hm⟩ : ∃ m, blockSize bits = m + 1 := ⟨blockSize bits - 1, by omega⟩
    rw [hm, List.range_succ, List.map_append, List.map_cons, List.map_nil,
      List.getLast?_concat]
    simp [hm]

/-- C7 counterexample: the claim also covers `0.0.0.0/0` — well-formed,
and its block has more than 2 addresses — but there the expansion never
returns at all: every address is inside the block, `incIP` wraps
`255.255.255.255` to `0.0.0.0`, and the loop runs forever (`none` in
the fuelled model, with fuel exceeding the number of distinct loop
states). -/
theorem addressExpander_slash_zero_diverges :
    expandCIDRGo (some (0, 0)) = none := by
  rw [expandCIDRGo, expandLoop_zero_bits 0 (blockSize 0 + 1) (networkOf 0 0) []]

/-- Witness for C7 at 192.168.0.0/30: the full block is
192.168.0.0-192.168.0.3 and the expansion keeps the two middle
addresses. -/
theorem addressExpander_spec_witness :
    (1 ≤ 30) ∧ (30 ≤ 32) ∧ (3232235520 < 2 ^ 32) ∧
    expandCIDRGo (some (3232235520, 30))
      = some (Except.ok [3232235521, 3232235522]) ∧
    ((List.range (blockSize 30)).map
        (fun j => networkOf 3232235520 30 + j)).Pairwise (· < ·) := by
  have h := addressExpander_spec 3232235520 30 (by norm_num) (by norm_num) (by norm_num)
  refine ⟨by norm_num, by norm_num, by norm_num, ?_, h.2.1⟩
  rw [h.1]
  rfl

/-! ### TCP ping of a single host (src/unnamed/part_002, pingHost)

`pingHost` walks the fixed port list `80, 443, 22, 21, 445, 139` in
order, dialling each; the first attempt that either connects or fails
with an error classified by `isConnectionRefused` marks the host alive
with that attempt's round-trip time, and stops the walk.  A dial error
is modelled by whether the value is a `*net.OpError` plus its message
text, the two things `isConnectionRefused` inspects (the source's inner
re-assertion of the wrapped error yields the same message).  Dial
outcomes and round-trip times come from an oracle indexed by port;
strings are ASCII so Go's byte indexing is character indexing. -/

structure DialErr where
  isOpError : Bool
  msg : String
deriving DecidableEq, Repr

structure DialAttempt where
  err : Option DialErr
  latencyMs : ℚ
deriving DecidableEq, Repr

/-- `containsSubstring` (part_002, lines 202-209). -/
def containsSubstringGo (s sub : List Char) : Bool :=
  (List.range (s.length - sub.length + 1)).any
    (fun i => (s.drop i).take sub.length == sub)

/-- `contains` (part_002, lines 197-200). -/
def containsGo (s sub : String) : Bool :=
  decide (sub.length ≤ s.length) &&
    (s == sub || (decide (0 < s.length) && containsSubstringGo s.data sub.data))

/-- `isConnectionRefused` (part_002, lines 180-195). -/
def isConnectionRefusedGo (e : DialErr) : Bool :=
  e.isOpError &&
    (containsGo e.msg "connection refused" || containsGo e.msg "refused" ||
      containsGo e.msg "reset")

/-- The fixed probe port order of `pingHost` (part_002, line 97). -/
def pingPorts : List Nat := [80, 443, 22, 21, 445, 139]

/-- An attempt makes the host count as alive: successful connect, or a
refused/reset error (refusal proves the host exists). -/
def attemptQualifies (a : DialAttempt) : Bool :=
  match a.err with
  | none => true
  | some e => isConnectionRefusedGo e

structure ScanHostM where
  ip : String
  hostname : String
  alive : Bool
  latencyMs : ℚ
deriving DecidableEq, Repr

/-- The port loop of `pingHost` (part_002, lines 99-117): first
qualifying port and its latency, if any. -/
def pingLoop (dial : Nat → DialAttempt) : List Nat → Option (Nat × ℚ)
  | [] => none
  | p :: rest =>
      if attemptQualifies (dial p) then some (p, (dial p).latencyMs)
      else pingLoop dial rest

/-- The ports the loop actually dials, in order. -/
def pingAttempts (dial : Nat → DialAttempt) : List Nat → List Nat
  | [] => []
  | p :: rest =>
      if attemptQualifies (dial p) then [p] else p :: pingAttempts dial rest

/-- `pingHost` (part_002, lines 89-127).  `revdns` is the best-effort
reverse lookup, tried only for alive hosts (`none`: lookup failed or
returned no names).  The wall-clock `LastSeen` stamp is omitted. -/
def pingHostGo (dial : Nat → DialAttempt) (revdns : String → Option String)
    (ip : String) : ScanHostM :=
  match pingLoop dial pingPorts with
  | some (_, lat) =>
      { ip := ip, hostname := (revdns ip).getD "", alive := true, latencyMs := lat }
  | none => { ip := ip, hostname := "", alive := false, latencyMs := 0 }

lemma pingLoop_eq_find (dial : Nat → DialAttempt) (l : List Nat) :
    pingLoop dial l = (l.find? (fun q => attemptQualifies (dial q))).map
      (fun p => (p, (dial p).latencyMs)) := by
  induction l with
  | nil => rfl
  | cons p rest ih =>
      by_cases h : attemptQualifies (dial p)
      · simp [pingLoop, List.find?_cons, h]
      · simp only [pingLoop, if_neg h, ih, List.find?_cons]
        rw [Bool.eq_false_iff.mpr h]

lemma pingAttempts_spec (dial : Nat → DialAttempt) (l : List Nat) :
    (∀ p, l.find? (fun q => attemptQualifies (dial q)) = some p →
      pingAttempts dial l
        = l.takeWhile (fun q => !attemptQualifies (dial q)) ++ [p]) ∧
    (l.find? (fun q => attemptQualifies (dial q)) = none →
      pingAttempts dial l = l) := by
  induction l with
  | nil => exact ⟨fun p hp => by simp at hp, fun _ => rfl⟩
  | cons q rest ih =>
      constructor
      · intro p hp
        by_cases h : attemptQualifies (dial q)
        · simp only [List.find?_cons, h] at hp
          injection hp with hp
          subst hp
          simp [pingAttempts, h, List.takeWhile_cons]
        · simp only [List.find?_cons, Bool.eq_false_iff.mpr h] at hp
          have hrest := ih.1 p hp
          simp [pingAttempts, h, List.takeWhile_cons, hrest]
      · intro hfind
        by_cases h : attemptQualifies (dial q)
        · simp only [List.find?_cons, h] at hfind
          exact absurd hfind (by simp)
        · simp only [List.find?_cons, Bool.eq_false_iff.mpr h] at hfind
          simp [pingAttempts, h, ih.2 hfind]

/-- C8: the liveness check dials the ports 80, 443, 22, 21, 445, 139 in
that order; the host is alive exactly on the first port whose attempt
connects or fails refused/reset, that attempt's round-trip time becomes
the host latency, no later port is dialled, and if no port qualifies
the host is not alive (after dialling all six ports). -/
theorem pingHost_first_qualifying_port (dial : Nat → DialAttempt)
    (revdns : String → Option String) (ip : String) :
    (∀ p, pingPorts.find? (fun q => attemptQualifies (dial q)) = some p →
      (pingHostGo dial revdns ip).alive = true ∧
      (pingHostGo dial revdns ip).latencyMs = (dial p).latencyMs ∧
      pingAttempts dial pingPorts
        = pingPorts.takeWhile (fun q => !attemptQualifies (dial q)) ++ [p]) ∧
    (pingPorts.find? (fun q => attemptQualifies (dial q)) = none →
      (pingHostGo dial revdns ip).alive = false ∧
      pingAttempts dial pingPorts = pingPorts) := by
  constructor
  · intro p hp
    have hloop : pingLoop dial pingPorts = some (p, (dial p).latencyMs) := by
      rw [pingLoop_eq_find, hp]
      rfl
    refine ⟨?_, ?_, (pingAttempts_spec dial pingPorts).1 p hp⟩
    · rw [pingHostGo, hloop]
    · rw [pingHostGo, hloop]
  · intro hnone
    have hloop : pingLoop dial pingPorts = none := by
      rw [pingLoop_eq_find, hnone]
      rfl
    refine ⟨?_, (pingAttempts_spec dial pingPorts).2 hnone⟩
    rw [pingHostGo, hloop]

/-- Witness for C8: ports 80 and 443 time out, port 22 is refused — the
host is alive with port 22's round-trip time after dialling exactly
80, 443, 22. -/
theorem pingHost_first_qualifying_port_witness :
    pingPorts.find?
        (fun q => attemptQualifies
          (if q = 22 then DialAttempt.mk (some (DialErr.mk true "connect: connection refused")) 5
           else DialAttempt.mk (some (DialErr.mk true "i/o timeout")) 9)) = some 22 ∧
    (pingHostGo
        (fun q =>
          if q = 22 then DialAttempt.mk (some (DialErr.mk true "connect: connection refused")) 5
          else DialAttempt.mk (some (DialErr.mk true "i/o timeout")) 9)
        (fun _ => none) "192.168.0.7").alive = true ∧
    (pingHostGo
        (fun q =>
          if q = 22 then DialAttempt.mk (some (DialErr.mk true "connect: connection refused")) 5
          else DialAttempt.mk (some (DialErr.mk true "i/o timeout")) 9)
        (fun _ => none) "192.168.0.7").latencyMs = 5 ∧
    pingAttempts
        (fun q =>
          if q = 22 then DialAttempt.mk (some (DialErr.mk true "connect: connection refused")) 5
          else DialAttempt.mk (some (DialErr.mk true "i/o timeout")) 9)
        pingPorts = [80, 443, 22] := by
  have hfind : pingPorts.find?
      (fun q => attemptQualifies
        (if q = 22 then DialAttempt.mk (some (DialErr.mk true "connect: connection refused")) 5
         else DialAttempt.mk (some (DialErr.mk true "i/o timeout")) 9)) = some 22 := by
    rfl
  have h := (pingHost_first_qualifying_port
    (fun q =>
      if q = 22 then DialAttempt.mk (some (DialErr.mk true "connect: connection refused")) 5
      else DialAttempt.mk (some (DialErr.mk true "i/o timeout")) 9)
    (fun _ => none) "192.168.0.7").1 22 hfind
  exact ⟨hfind, h.1, h.2.1, by rw [h.2.2]; rfl⟩

/-! ### The channel worker pool (portscan.go ScanHost, part_002 SweepSubnet)

Both `ScanHost` and `SweepSubnet` use the same shape: a jobs channel
pre-filled with the item list (consumed in order), `concurrency` workers
each repeatedly taking an item and pushing its result — if any — to a
results channel sized to the item count, and a collector draining the
results after all workers are done.  With the context never cancelled
(the situation the checked properties describe), the atomic events are:

- `take`: a worker receives the next item from the jobs channel;
- `finish`: a worker completes its item, pushing `process item` (when it
  is `some _`) onto the results channel.

The results channel is a multiset: arrival order across workers is
unspecified.  `process` returns `none` when the item produces no result
(`scanPort` on a failed connect). -/

structure PoolState (α β : Type) where
  queue : List α
  inFlight : Multiset α
  out : Multiset β

/-- The result push at the end of one worker iteration. -/
def pushOut {α β : Type} (process : α → Option β) (a : α) (out : Multiset β) :
    Multiset β :=
  match process a with
  | some b => b ::ₘ out
  | none => out

inductive PoolStep {α β : Type} (process : α → Option β) :
    PoolState α β → PoolState α β → Prop
  | take (a : α) (q : List α) (inF : Multiset α) (out : Multiset β) :
      PoolStep process ⟨a :: q, inF, out⟩ ⟨q, a ::ₘ inF, out⟩
  | finish (a : α) (q : List α) (inF : Multiset α) (out : Multiset β) :
      PoolStep process ⟨q, a ::ₘ inF, out⟩ ⟨q, inF, pushOut process a out⟩

def poolInit {α β : Type} (items : List α) : PoolState α β := ⟨items, 0, 0⟩

def PoolReachable {α β : Type} (process : α → Option β)
    (s s' : PoolState α β) : Prop :=
  Relation.ReflTransGen (PoolStep process) s s'

/-- Pool invariant: the pending queue, the in-flight items and some list
of completed items partition the original items, and the output is
exactly the completed items' results. -/
def poolInv {α β : Type} (process : α → Option β) (items : List α)
    (s : PoolState α β) : Prop :=
  ∃ done : List α,
    (↑s.queue + s.inFlight + ↑done = (↑items : Multiset α)) ∧
    s.out = ↑(done.filterMap process)

lemma poolInv_init {α β : Type} (process : α → Option β) (items : List α) :
    poolInv process items (poolInit items) := by
  refine ⟨[], ?_, rfl⟩
  simp [poolInit]

lemma poolInv_step {α β : Type} {process : α → Option β} {items : List α}
    {s s' : PoolState α β} (hstep : PoolStep process s s')
    (hinv : poolInv process items s) : poolInv process items s' := by
  obtain ⟨done, hpart, hout⟩ := hinv
  cases hstep with
  | take a q inF out =>
      dsimp only at hpart hout
      refine ⟨done, ?_, hout⟩
      rw [← hpart, ← Multiset.cons_coe, ← Multiset.singleton_add,
        ← Multiset.singleton_add]
      simp only [add_comm, add_left_comm, add_assoc]
  | finish a q inF out =>
      dsimp only at hpart hout
      refine ⟨a :: done, ?_, ?_⟩
      · show (↑q : Multiset α) + inF + ↑(a :: done) = ↑items
        rw [← hpart, ← Multiset.cons_coe]
        simp only [← Multiset.singleton_add]
        simp only [add_comm, add_left_comm, add_assoc]
      · show pushOut process a out = ↑(List.filterMap process (a :: done))
        rw [List.filterMap_cons]
        cases hpa : process a with
        | none => simp [pushOut, hpa, hout]
        | some b => simp [pushOut, hpa, hout, ← Multiset.cons_coe]

lemma poolInv_reachable {α β : Type} {process : α → Option β} {items : List α}
    {s : PoolState α β} (h : PoolReachable process (poolInit items) s) :
    poolInv process items s := by
  induction h with
  | refl => exact poolInv_init process items
  | tail _ hstep ih => exact poolInv_step hstep ih

/-- When the queue is drained and no worker is mid-item, the output is
exactly the filterMap of the items, as a multiset. -/
lemma pool_final_out {α β : Type} {process : α → Option β} {items : List α}
    {s : PoolState α β} (h : PoolReachable process (poolInit items) s)
    (hq : s.queue = []) (hf : s.inFlight = 0) :
    s.out = ↑(items.filterMap process) := by
  obtain ⟨done, hpart, hout⟩ := poolInv_reachable h
  rw [hq, hf] at hpart
  have hdone : (↑done : Multiset α) = ↑items := by
    simpa using hpart
  have hperm : done.Perm items := Multiset.coe_eq_coe.mp hdone
  rw [hout, Multiset.coe_eq_coe]
  exact hperm.filterMap process

/-- A sequential execution (take then finish, item by item) reaches the
drained state; used by the concrete witnesses. -/
lemma pool_run_reachable {α β : Type} (process : α → Option β) :
    ∀ (items : List α) (out : Multiset β),
      PoolReachable process ⟨items, 0, out⟩ ⟨[], 0, ↑(items.filterMap process) + out⟩ := by
  intro items
  induction items with
  | nil =>
      intro out
      have : (↑(List.filterMap process []) : Multiset β) + out = out := by simp
      rw [this]
      exact Relation.ReflTransGen.refl
  | cons a items ih =>
      intro out
      refine Relation.ReflTransGen.head (PoolStep.take a items 0 out) ?_
      refine Relation.ReflTransGen.head (PoolStep.finish a items 0 out) ?_
      have h := ih (pushOut process a out)
      have heq : (↑(List.filterMap process items) : Multiset β) + pushOut process a out
          = ↑(List.filterMap process (a :: items)) + out := by
        rw [List.filterMap_cons]
        cases hpa : process a with
        | none => simp [pushOut, hpa]
        | some b =>
            simp only [pushOut, hpa, ← Multiset.cons_coe]
            rw [Multiset.add_cons, Multiset.cons_add]
      rwa [heq] at h

lemma pool_run_reachable_init {α β : Type} (process : α → Option β) (items : List α) :
    PoolReachable process (poolInit items) ⟨[], 0, ↑(items.filterMap process)⟩ := by
  have h := pool_run_reachable process items 0
  simpa using h

/-! ### Port scan of one host (src/internal/probes/portscan.go)

`scanPort` dials `host:port`; any connect error yields `nil` (no result
record at all), a successful connect yields a `ScanResult` with state
"open", the service name from the static table (default "unknown"), and
a best-effort banner.  `ScanHost` fans the configured port list through
the worker pool and collects the records.  The dial oracle maps a port
to `none` (connect failed) or `some readRes`, where `readRes` is the
banner read outcome (`none`: read error or zero bytes). -/

/-- The `serviceNames` table (portscan.go, lines 50-58). -/
def serviceNamesGo : List (Nat × String) :=
  [(21, "ftp"), (22, "ssh"), (23, "telnet"), (25, "smtp"), (53, "dns"),
   (80, "http"), (110, "pop3"), (111, "rpc"), (135, "msrpc"), (139, "netbios"),
   (143, "imap"), (443, "https"), (445, "smb"), (993, "imaps"), (995, "pop3s"),
   (1433, "mssql"), (1521, "oracle"), (1723, "pptp"), (3306, "mysql"),
   (3389, "rdp"), (5432, "postgresql"), (5900, "vnc"), (5984, "couchdb"),
   (6379, "redis"), (8080, "http-alt"), (8443, "https-alt"), (8888, "http-alt"),
   (9092, "kafka"), (9200, "elasticsearch"), (11211, "memcached"),
   (27017, "mongodb")]

/-- `getServiceName` (portscan.go, lines 147-152). -/
def getServiceNameGo (port : Nat) : String :=
  match serviceNamesGo.find? (fun e => e.1 == port) with
  | some e => e.2
  | none => "unknown"

/-- `DefaultPorts` (portscan.go, lines 39-47). -/
def defaultPortsGo : List Nat :=
  [21, 22, 23, 25, 53, 80, 110, 111, 135, 139,
   143, 443, 445, 993, 995, 1723, 3306, 3389, 5432, 5900,
   8080, 8443, 8888, 27017, 6379, 11211, 1433, 1521, 5984, 9200,
   2181, 9092, 6443, 10250, 2379, 4443, 7443, 8000, 8001, 8002,
   9000, 9001, 9090, 9091, 9443, 10000, 10443, 15672, 27018, 27019]

structure ScanPortM where
  port : Nat
  protocol : String
  service : String
  state : String
  banner : String
deriving DecidableEq, Repr

/-- `grabBanner` (portscan.go, lines 154-170): read error or zero bytes
yield an empty banner; long banners are truncated to 200 bytes (ASCII:
characters). -/
def grabBannerGo (readRes : Option String) : String :=
  match readRes with
  | none => ""
  | some b => if 200 < b.length then String.mk (b.data.take 200) else b

/-- `scanPort` (portscan.go, lines 126-145) followed by the record
construction in `ScanHost`'s collector (lines 112-121, minus the
wall-clock stamp): `none` exactly when the connect failed. -/
def scanPortGo (dial : Nat → Option (Option String)) (port : Nat) :
    Option ScanPortM :=
  match dial port with
  | none => none
  | some readRes =>
      some { port := port, protocol := "tcp", state := "open",
             service := getServiceNameGo port, banner := grabBannerGo readRes }

lemma countP_filterMap_scanPort (dial : Nat → Option (Option String)) (p : Nat) :
    ∀ ports : List Nat,
      (ports.filterMap (scanPortGo dial)).countP (fun r => r.port == p)
        = if (dial p).isSome then ports.count p else 0 := by
  intro ports
  induction ports with
  | nil => simp
  | cons q ports ih =>
      rw [List.filterMap_cons]
      cases hdq : dial q with
      | none =>
          have hq : scanPortGo dial q = none := by rw [scanPortGo, hdq]
          rw [hq]
          by_cases hqp : q = p
          · subst hqp
            rw [ih, List.count_cons]
            simp [hdq]
          · rw [ih, List.count_cons]
            simp [hqp]
      | some readRes =>
          have hq : scanPortGo dial q
              = some { port := q, protocol := "tcp", state := "open",
                       service := getServiceNameGo q, banner := grabBannerGo readRes } := by
            rw [scanPortGo, hdq]
          rw [hq, List.countP_cons, ih, List.count_cons]
          by_cases hqp : q = p
          · subst hqp
            simp [hdq]
          · simp [hqp]

/-- C9: with the context never cancelled, a port of the configured list
produces a record in `ScanHost`'s result exactly when the TCP connect to
it succeeded (a failed connect produces no record at all); every record
carries state "open", protocol "tcp" and the static table's service
name; and the records are exactly the connect successes of the port
list. -/
theorem portScanner_scanHost_spec (dial : Nat → Option (Option String))
    (ports : List Nat) (s : PoolState Nat ScanPortM)
    (hreach : PoolReachable (scanPortGo dial) (poolInit ports) s)
    (hq : s.queue = []) (hf : s.inFlight = 0) :
    s.out = ↑(ports.filterMap (scanPortGo dial)) ∧
    (∀ r ∈ s.out, r.state = "open" ∧ r.protocol = "tcp" ∧
       r.service = getServiceNameGo r.port) ∧
    (∀ p, s.out.countP (fun r => r.port = p)
       = if (dial p).isSome then ports.count p else 0) ∧
    (∀ p, (∃ r ∈ s.out, r.port = p) ↔ ((dial p).isSome = true ∧ p ∈ ports)) := by
  have hout := pool_final_out hreach hq hf
  have hcount : ∀ p, s.out.countP (fun r => r.port = p)
      = if (dial p).isSome then ports.count p else 0 := by
    intro p
    rw [hout, Multiset.coe_countP]
    have : (fun r : ScanPortM => decide (r.port = p)) = (fun r => r.port == p) := by
      funext r
      rfl
    rw [this, countP_filterMap_scanPort]
  refine ⟨hout, ?_, hcount, ?_⟩
  · intro r hr
    rw [hout, Multiset.mem_coe] at hr
    obtain ⟨q, hq', hscan⟩ := List.mem_filterMap.mp hr
    rw [scanPortGo] at hscan
    cases hdq : dial q with
    | none => rw [hdq] at hscan; exact absurd hscan (by simp)
    | some readRes =>
        rw [hdq] at hscan
        injection hscan with hscan
        subst hscan
        exact ⟨rfl, rfl, rfl⟩
  · intro p
    constructor
    · intro hex
      have hpos : 0 < s.out.countP (fun r => r.port = p) :=
        Multiset.countP_pos.mpr hex
      rw [hcount p] at hpos
      by_cases hd : (dial p).isSome
      · refine ⟨hd, ?_⟩
        rw [if_pos hd] at hpos
        exact List.count_pos_iff.mp hpos
      · rw [if_neg hd] at hpos
        omega
    · intro ⟨hd, hp⟩
      apply Multiset.countP_pos.mp
      rw [hcount p, if_pos hd]
      exact List.count_pos_iff.mpr hp

/-- Witness for C9: scanning the default port list on a host where only
port 22 accepts connections (with nothing read for a banner) yields
exactly one record: port 22, open, service "ssh". -/
theorem portScanner_scanHost_spec_witness :
    PoolReachable (scanPortGo (fun p => if p = 22 then some none else none))
      (poolInit defaultPortsGo)
      ⟨[], 0, ↑(defaultPortsGo.filterMap
          (scanPortGo (fun p => if p = 22 then some none else none)))⟩ ∧
    defaultPortsGo.filterMap (scanPortGo (fun p => if p = 22 then some none else none))
      = [⟨22, "tcp", "ssh", "open", ""⟩] ∧
    (⟨[], 0, ↑(defaultPortsGo.filterMap
          (scanPortGo (fun p => if p = 22 then some none else none)))⟩ :
        PoolState Nat ScanPortM).out
      = ↑(defaultPortsGo.filterMap (scanPortGo (fun p => if p = 22 then some none else none))) ∧
    (∀ r ∈ (⟨[], 0, ↑(defaultPortsGo.filterMap
          (scanPortGo (fun p => if p = 22 then some none else none)))⟩ :
        PoolState Nat ScanPortM).out,
      r.state = "open" ∧ r.protocol = "tcp" ∧ r.service = getServiceNameGo r.port) := by
  have hreach := pool_run_reachable_init
    (scanPortGo (fun p => if p = 22 then some none else none)) defaultPortsGo
  have h := portScanner_scanHost_spec (fun p => if p = 22 then some none else none)
    defaultPortsGo _ hreach rfl rfl
  exact ⟨hreach, by rfl, h.1, h.2.1⟩

/-! ### Subnet sweep (src/unnamed/part_002, SweepSubnet)

`SweepSubnet` expands the CIDR, pushes every candidate address through
the worker pool, and collects one `ScanHost` per processed address —
`pingHost` always returns a record, alive or not, and the worker pushes
it unconditionally. `ip.String()` on a 4-byte address is dotted
decimal. -/

def ipv4String (n : Nat) : String :=
  toString (n / 2 ^ 24 % 256) ++ "." ++ toString (n / 2 ^ 16 % 256) ++ "." ++
    toString (n / 2 ^ 8 % 256) ++ "." ++ toString (n % 256)

lemma pingHostGo_ip (dial : Nat → DialAttempt) (revdns : String → Option String)
    (ip : String) : (pingHostGo dial revdns ip).ip = ip := by
  rw [pingHostGo]
  cases pingLoop dial pingPorts with
  | none => rfl
  | some pr => rfl

lemma filterMap_some_comp {α β : Type} (f : α → β) :
    ∀ l : List α, l.filterMap (fun a => some (f a)) = l.map f := by
  intro l
  induction l with
  | nil => rfl
  | cons a l ih => rw [List.filterMap_cons]; simp [ih]

/-- C10: with the context never cancelled, the sweep's result multiset
is exactly one `ScanHost` per candidate address of the CIDR expansion —
unreachable candidates included, not omitted — so its size equals the
number of candidates, and the number of entries carrying a candidate's
address text equals that address's multiplicity among the formatted
candidates. -/
theorem pingSweep_complete_spec (dial : Nat → DialAttempt)
    (revdns : String → Option String) (base bits : Nat) (addrs : List Nat)
    (s : PoolState Nat ScanHostM)
    (_hexp : expandCIDRGo (some (base, bits)) = some (Except.ok addrs))
    (hreach : PoolReachable (fun a => some (pingHostGo dial revdns (ipv4String a)))
      (poolInit addrs) s)
    (hq : s.queue = []) (hf : s.inFlight = 0) :
    s.out = ↑(addrs.map (fun a => pingHostGo dial revdns (ipv4String a))) ∧
    Multiset.card s.out = addrs.length ∧
    (∀ a : Nat, s.out.countP (fun h => h.ip = ipv4String a)
       = (addrs.map ipv4String).count (ipv4String a)) ∧
    (∀ h ∈ s.out, ∃ a ∈ addrs, h = pingHostGo dial revdns (ipv4String a)) := by
  have hout := pool_final_out hreach hq hf
  rw [filterMap_some_comp] at hout
  refine ⟨hout, ?_, ?_, ?_⟩
  · rw [hout, Multiset.coe_card, List.length_map]
  · intro a
    rw [hout, Multiset.coe_countP, List.countP_map]
    have hcongr : ∀ x ∈ addrs,
        (((fun h : ScanHostM => decide (h.ip = ipv4String a)) ∘
          (fun x => pingHostGo dial revdns (ipv4String x))) x = true
          ↔ (fun x : Nat => ipv4String x == ipv4String a) x = true) := by
      intro x hx
      simp [Function.comp, pingHostGo_ip]
    rw [List.countP_congr hcongr]
    rw [List.count, List.countP_map]
    rfl
  · intro h hmem
    rw [hout, Multiset.mem_coe] at hmem
    obtain ⟨a, ha, heq⟩ := List.mem_map.mp hmem
    exact ⟨a, ha, heq.symm⟩

/-- Witness for C10 on 192.168.0.0/30 with every dial timing out: both
candidates appear in the result, not alive, and the result size is the
candidate count 2. -/
theorem pingSweep_complete_spec_witness :
    expandCIDRGo (some (3232235520, 30))
      = some (Except.ok [3232235521, 3232235522]) ∧
    PoolReachable
      (fun a => some (pingHostGo (fun _ => DialAttempt.mk (some (DialErr.mk true "i/o timeout")) 1)
        (fun _ => none) (ipv4String a)))
      (poolInit [3232235521, 3232235522])
      ⟨[], 0, ↑([3232235521, 3232235522].filterMap
        (fun a => some (pingHostGo (fun _ => DialAttempt.mk (some (DialErr.mk true "i/o timeout")) 1)
          (fun _ => none) (ipv4String a))))⟩ ∧
    Multiset.card
      (⟨[], 0, ↑([3232235521, 3232235522].filterMap
        (fun a => some (pingHostGo (fun _ => DialAttempt.mk (some (DialErr.mk true "i/o timeout")) 1)
          (fun _ => none) (ipv4String a))))⟩ : PoolState Nat ScanHostM).out = 2 ∧
    [3232235521, 3232235522].filterMap
        (fun a => some (pingHostGo (fun _ => DialAttempt.mk (some (DialErr.mk true "i/o timeout")) 1)
          (fun _ => none) (ipv4String a)))
      = [⟨"192.168.0.1", "", false, 0⟩, ⟨"192.168.0.2", "", false, 0⟩] := by
  have hexp : expandCIDRGo (some (3232235520, 30))
      = some (Except.ok [3232235521, 3232235522]) := by
    have h := addressExpander_spec 3232235520 30 (by norm_num) (by norm_num) (by norm_num)
    rw [h.1]
    rfl
  have hreach := pool_run_reachable_init
    (fun a => some (pingHostGo (fun _ => DialAttempt.mk (some (DialErr.mk true "i/o timeout")) 1)
      (fun _ => none) (ipv4String a)))
    [3232235521, 3232235522]
  have h := pingSweep_complete_spec
    (fun _ => DialAttempt.mk (some (DialErr.mk true "i/o timeout")) 1)
    (fun _ => none) 3232235520 30 [3232235521, 3232235522] _ hexp hreach rfl rfl
  refine ⟨hexp, hreach, ?_, by decide⟩
  rw [h.2.1]
  rfl

end NetPulse
